import Mathlib

/-!
Verification of the discord-fuse filesystem (src/main.rs) against its
natural-language specification.  The Rust source is shallowly embedded:
the inode table (`BTreeMap<u64, DiscordFile>`) becomes a key-sorted
association list, the serenity chat client becomes explicit function
fields of `DiscordFS`, machine integers become `Nat` (with `% 2^32`
where the source casts to `u32`), and each FUSE callback becomes a pure
function returning a reply value.  `String::from_utf8_lossy` and
`OsStr::to_str` are modelled by an explicit UTF-8 decoder following the
documented replacement-of-maximal-subparts policy.
-/

namespace DFuse

/-- File kinds used by the fuse crate (only the two kinds the source uses). -/
inductive FileType where
  | Directory
  | RegularFile
deriving DecidableEq

/-- POSIX attributes, mirroring `fuse::FileAttr` (times as seconds since epoch). -/
structure FileAttr where
  ino : Nat
  size : Nat
  blocks : Nat
  atime : Nat
  mtime : Nat
  ctime : Nat
  crtime : Nat
  kind : FileType
  perm : Nat
  nlink : Nat
  uid : Nat
  gid : Nat
  rdev : Nat
  flags : Nat
deriving DecidableEq

/-- Mirrors `enum DiscordFileType { Guild, ChannelFile(u64, u64) }`. -/
inductive DiscordFileType where
  | Guild
  | ChannelFile (guildId : Nat) (channelId : Nat)
deriving DecidableEq

/-- Mirrors `struct DiscordFile { filename, ty, parent, attr }`. -/
structure DiscordFile where
  filename : String
  ty : DiscordFileType
  parent : Nat
  attr : FileAttr
deriving DecidableEq

/-- The inode table: `BTreeMap<u64, DiscordFile>` as a key-sorted association list. -/
abbrev FileTree := List (Nat × DiscordFile)

/-- `BTreeMap::get`. -/
def treeGet : FileTree → Nat → Option DiscordFile
  | [], _ => none
  | kv :: rest, k => if k = kv.1 then some kv.2 else treeGet rest k

/-- `BTreeMap::insert`: sorted insertion, replacing an existing key. -/
def treeInsert : FileTree → Nat → DiscordFile → FileTree
  | [], k, v => [(k, v)]
  | kv :: rest, k, v =>
    if k < kv.1 then (k, v) :: kv :: rest
    else if k = kv.1 then (k, v) :: rest
    else kv :: treeInsert rest k v

/-- Representation invariant of the `BTreeMap` embedding: keys strictly ascending. -/
def TreeSorted (t : FileTree) : Prop :=
  List.Pairwise (fun a b => a.1 < b.1) t

instance (t : FileTree) : Decidable (TreeSorted t) := by
  unfold TreeSorted
  infer_instance

/-! ### Decimal printing (the `{}` / `{:04}` format specifiers) -/

/-- Accumulator-style decimal digits of `n`, most significant first (fuel recursion). -/
def natDigitsAux : Nat → Nat → List Char → List Char
  | 0, _, acc => acc
  | fuel + 1, n, acc =>
    if n < 10 then Char.ofNat (48 + n % 10) :: acc
    else natDigitsAux fuel (n / 10) (Char.ofNat (48 + n % 10) :: acc)

/-- Decimal rendering of a `Nat`, as Rust's `format!("{}", n)` produces. -/
def natToString (n : Nat) : String :=
  String.mk (natDigitsAux (n + 1) n [])

/-- Numeric value of a digit string; inverse of `natDigitsAux` used for injectivity. -/
def digitsVal (l : List Char) : Nat :=
  l.foldl (fun a c => a * 10 + (c.toNat - 48)) 0

/-- Rust's `{:04}`: decimal digits left-padded with zeros to width four. -/
def pad4 (n : Nat) : String :=
  let s := natToString n
  if s.length < 4 then String.mk (List.replicate (4 - s.length) ('0')) ++ s else s

/-! ### The Name Uniquifier (`unique_name` in the source) -/

/-- The collision name `format!("{} ({})", base, i)`. -/
def candidate (base : String) (i : Nat) : String :=
  base ++ " (" ++ natToString i ++ ")"

/-- The `for i in 1..` loop body of `unique_name`; fuel replaces the
unbounded loop (the loop always terminates within `known.length + 1` tries). -/
def uniqueNameLoop (base : String) (known : List String) : Nat → Nat → String
  | 0, i => candidate base i
  | fuel + 1, i =>
    if candidate base i ∈ known then uniqueNameLoop base known fuel (i + 1)
    else candidate base i

/-- Mirrors `fn unique_name(base: &str, known_names: &[String]) -> String`. -/
def unique_name (base : String) (known : List String) : String :=
  if base ∈ known then uniqueNameLoop base known (known.length + 1) 1 else base

/-! ### Messages and the read rendering -/

structure Attachment where
  url : String
deriving DecidableEq

structure Author where
  name : String
  discriminator : Nat
deriving DecidableEq

structure Message where
  author : Author
  content : String
  attachments : List Attachment
deriving DecidableEq

/-- The `attachments` accumulator: `map(|att| format!("{} ", att.url)).collect::<String>()`. -/
def attachmentsText (atts : List Attachment) : String :=
  String.join (atts.map (fun att => att.url ++ " "))

/-- One rendered line, mirroring the `format!("{}#{:04}: {}\n", ...)` call in `read`. -/
def renderMessage (m : Message) : String :=
  m.author.name ++ "#" ++ pad4 m.author.discriminator ++ ": " ++
    (if m.attachments.isEmpty then m.content
     else m.content ++ " " ++ attachmentsText m.attachments) ++ "\n"

/-! ### UTF-8 encoding and decoding

`read` slices the rendered `String` at a byte offset, `write` decodes the
incoming bytes with `String::from_utf8_lossy`, and `lookup` converts the
`OsStr` name with `to_str` (which fails exactly on invalid UTF-8).  We model
bytes as `Nat`s and implement the standard UTF-8 automaton: one
`utf8Step` consuming a single scalar value or one maximal invalid subpart,
exactly as Rust's `Utf8Error::error_len` prescribes. -/

/-- Continuation byte test: `0x80 ≤ b < 0xC0`. -/
def isCont (b : Nat) : Prop := 0x80 ≤ b ∧ b < 0xC0

instance (b : Nat) : Decidable (isCont b) := by
  unfold isCont
  infer_instance

/-- Admissible second byte of a three-byte sequence headed by `b0`
(`0xE0` forbids overlongs, `0xED` forbids surrogates). -/
def second3ok (b0 b1 : Nat) : Prop :=
  (if b0 = 0xE0 then 0xA0 else 0x80) ≤ b1 ∧ b1 < (if b0 = 0xED then 0xA0 else 0xC0)

instance (b0 b1 : Nat) : Decidable (second3ok b0 b1) := by
  unfold second3ok
  infer_instance

/-- Admissible second byte of a four-byte sequence headed by `b0`
(`0xF0` forbids overlongs, `0xF4` caps at U+10FFFF). -/
def second4ok (b0 b1 : Nat) : Prop :=
  (if b0 = 0xF0 then 0x90 else 0x80) ≤ b1 ∧ b1 < (if b0 = 0xF4 then 0x90 else 0xC0)

instance (b0 b1 : Nat) : Decidable (second4ok b0 b1) := by
  unfold second4ok
  infer_instance

/-- Result of consuming one UTF-8 item from the front of a byte list. -/
inductive Utf8Step where
  | done
  | char (c : Char) (rest : List Nat)
  | bad (rest : List Nat)
deriving DecidableEq

/-- Continuation of a two-byte sequence. -/
def step2 (b0 : Nat) : List Nat → Utf8Step
  | b1 :: rest1 =>
    if isCont b1 then Utf8Step.char (Char.ofNat ((b0 - 0xC0) * 64 + (b1 - 0x80))) rest1
    else Utf8Step.bad (b1 :: rest1)
  | [] => Utf8Step.bad []

/-- Continuation of a three-byte sequence. -/
def step3 (b0 : Nat) : List Nat → Utf8Step
  | b1 :: b2 :: rest2 =>
    if second3ok b0 b1 then
      if isCont b2 then
        Utf8Step.char (Char.ofNat (((b0 - 0xE0) * 64 + (b1 - 0x80)) * 64 + (b2 - 0x80))) rest2
      else Utf8Step.bad (b2 :: rest2)
    else Utf8Step.bad (b1 :: b2 :: rest2)
  | [b1] => if second3ok b0 b1 then Utf8Step.bad [] else Utf8Step.bad [b1]
  | [] => Utf8Step.bad []

/-- Continuation of a four-byte sequence. -/
def step4 (b0 : Nat) : List Nat → Utf8Step
  | b1 :: b2 :: b3 :: rest3 =>
    if second4ok b0 b1 then
      if isCont b2 then
        if isCont b3 then
          Utf8Step.char
            (Char.ofNat ((((b0 - 0xF0) * 64 + (b1 - 0x80)) * 64 + (b2 - 0x80)) * 64 + (b3 - 0x80)))
            rest3
        else Utf8Step.bad (b3 :: rest3)
      else Utf8Step.bad (b2 :: b3 :: rest3)
    else Utf8Step.bad (b1 :: b2 :: b3 :: rest3)
  | [b1, b2] =>
    if second4ok b0 b1 then
      if isCont b2 then Utf8Step.bad [] else Utf8Step.bad [b2]
    else Utf8Step.bad [b1, b2]
  | [b1] => if second4ok b0 b1 then Utf8Step.bad [] else Utf8Step.bad [b1]
  | [] => Utf8Step.bad []

/-- Consume one scalar value, or one maximal invalid subpart, from the front. -/
def utf8Step : List Nat → Utf8Step
  | [] => Utf8Step.done
  | b0 :: rest =>
    if b0 < 0x80 then Utf8Step.char (Char.ofNat b0) rest
    else if b0 < 0xC2 then Utf8Step.bad rest
    else if b0 < 0xE0 then step2 b0 rest
    else if b0 < 0xF0 then step3 b0 rest
    else if b0 < 0xF5 then step4 b0 rest
    else Utf8Step.bad rest

/-- Strict UTF-8 decoding (`str::from_utf8` / `OsStr::to_str`), fuel recursion. -/
def utf8DecodeAux : Nat → List Nat → Option (List Char)
  | 0, l => match l with | [] => some [] | _ :: _ => none
  | fuel + 1, l =>
    match utf8Step l with
    | Utf8Step.done => some []
    | Utf8Step.char c rest => (utf8DecodeAux fuel rest).map (fun cs => c :: cs)
    | Utf8Step.bad _ => none

/-- Strict UTF-8 decoding of a byte list. -/
def utf8Decode (l : List Nat) : Option (List Char) :=
  utf8DecodeAux l.length l

/-- Lossy decoding (`String::from_utf8_lossy`): each maximal invalid subpart
becomes U+FFFD, fuel recursion. -/
def utf8LossyAux : Nat → List Nat → List Char
  | 0, _ => []
  | fuel + 1, l =>
    match utf8Step l with
    | Utf8Step.done => []
    | Utf8Step.char c rest => c :: utf8LossyAux fuel rest
    | Utf8Step.bad rest => Char.ofNat 0xFFFD :: utf8LossyAux fuel rest

/-- `String::from_utf8_lossy` on a byte list. -/
def utf8Lossy (l : List Nat) : String :=
  String.mk (utf8LossyAux l.length l)

/-- UTF-8 encoding of one scalar value (`str::as_bytes` at the char level). -/
def utf8EncodeChar (c : Char) : List Nat :=
  let n := c.toNat
  if n < 0x80 then [n]
  else if n < 0x800 then [0xC0 + n / 64, 0x80 + n % 64]
  else if n < 0x10000 then [0xE0 + n / 4096, 0x80 + (n / 64) % 64, 0x80 + n % 64]
  else [0xF0 + n / 262144, 0x80 + (n / 4096) % 64, 0x80 + (n / 64) % 64, 0x80 + n % 64]

/-- UTF-8 encoding of a character list. -/
def utf8EncodeList (cs : List Char) : List Nat :=
  (cs.map utf8EncodeChar).flatten

/-- The byte sequence of a `String` (`String::as_bytes`). -/
def utf8Encode (s : String) : List Nat :=
  utf8EncodeList s.data

/-! ### The Namespace Builder (`build_file_tree`)

The serenity client is an external collaborator; its already-fetched
responses are the builder's input: one `GuildData` per guild of the single
`get_guilds` page, each carrying the `(ChannelId, GuildChannel)` pairs its
`channels()` call returned, in iteration order. -/

/-- Channel kinds relevant to the source's `ChannelType::Text` filter. -/
inductive ChannelKind where
  | Text
  | Voice
  | Category
deriving DecidableEq

structure ChannelData where
  name : String
  kind : ChannelKind
deriving DecidableEq

structure GuildData where
  id : Nat
  name : String
  channels : List (Nat × ChannelData)
deriving DecidableEq

/-- The guild-directory `FileAttr` literal from `build_file_tree`. -/
def guildAttr (ino : Nat) : FileAttr :=
  { ino := ino, size := 0, blocks := 0, atime := 0, mtime := 0, ctime := 0, crtime := 0,
    kind := FileType.Directory, perm := 0o555, nlink := 2, uid := 501, gid := 20,
    rdev := 0, flags := 0 }

/-- The channel-file `FileAttr` literal from `build_file_tree` (`size: u32::MAX as u64`). -/
def channelAttr (ino : Nat) : FileAttr :=
  { ino := ino, size := 4294967295, blocks := 0, atime := 0, mtime := 0, ctime := 0, crtime := 0,
    kind := FileType.RegularFile, perm := 0o644, nlink := 1, uid := 501, gid := 20,
    rdev := 0, flags := 0 }

/-- Body of the `for (key, value) in &channels` loop: skip non-text channels,
uniquify the name against the per-guild running list, insert the record. -/
def channelStep (gid : Nat) (st : FileTree × List String) (kv : Nat × ChannelData) :
    FileTree × List String :=
  if kv.2.kind = ChannelKind.Text then
    let name := unique_name kv.2.name st.2
    (treeInsert st.1 kv.1
      { filename := name, ty := DiscordFileType.ChannelFile gid kv.1, parent := gid,
        attr := channelAttr kv.1 },
     st.2 ++ [name])
  else st

/-- Body of the `for guild in &guilds` loop: uniquify the guild name, insert the
guild record with parent 1, then process its channels with a fresh name list. -/
def guildStep (st : FileTree × List String) (g : GuildData) : FileTree × List String :=
  let name := unique_name g.name st.2
  let files1 := treeInsert st.1 g.id
    { filename := name, ty := DiscordFileType.Guild, parent := 1, attr := guildAttr g.id }
  ((g.channels.foldl (channelStep g.id) (files1, [])).1, st.2 ++ [name])

/-- Mirrors `async fn build_file_tree` on the success path (an adapter error
aborts the mount and publishes no table). -/
def build_file_tree (guilds : List GuildData) : FileTree :=
  (guilds.foldl guildStep ([], [])).1

/-- All remote identifiers appearing in the adapter's response. -/
def allIds (guilds : List GuildData) : List Nat :=
  guilds.map GuildData.id ++ (guilds.map (fun g => g.channels.map Prod.fst)).flatten

/-! ### The FUSE adapter -/

/-- The mounted filesystem state: the immutable inode table plus the two
chat-adapter operations the callbacks use (`get_messages` returning
newest-first, and `ChannelId::say` returning success or failure). -/
structure DiscordFS where
  files : FileTree
  fetchMessages : Nat → Option (List Message)
  postMessage : Nat → String → Bool

inductive Errno where
  | ENOENT
  | EIO
deriving DecidableEq

/-- Reply of `lookup`: `reply.entry`, `reply.error`, or a Rust panic from
`name.to_str().expect("Bad name!")`. -/
inductive LookupReply where
  | panicked
  | entry (attr : FileAttr)
  | error (e : Errno)
deriving DecidableEq

/-- Mirrors `fn lookup`: the `OsStr` name arrives as raw bytes, is converted
with `to_str` (panicking on invalid UTF-8), then the first table record with
matching parent and filename is returned. -/
def lookup (fs : DiscordFS) (parent : Nat) (name : List Nat) : LookupReply :=
  match utf8Decode name with
  | none => LookupReply.panicked
  | some cs =>
    match fs.files.find? (fun kv => kv.2.parent == parent && kv.2.filename == String.mk cs) with
    | some kv => LookupReply.entry kv.2.attr
    | none => LookupReply.error Errno.ENOENT

inductive ReadReply where
  | data (bytes : List Nat)
  | error (e : Errno)
deriving DecidableEq

/-- Mirrors `fn read` (the unused `size` argument is kept to state its
irrelevance): fetch, reverse to oldest-first, render, then slice at the
byte offset. -/
def read (fs : DiscordFS) (ino : Nat) (offset : Nat) (size : Nat) : ReadReply :=
  match (treeGet fs.files ino).map DiscordFile.ty with
  | some (DiscordFileType.ChannelFile _ id) =>
    match fs.fetchMessages id with
    | some channel =>
      let msgs := utf8Encode (String.join ((channel.reverse).map renderMessage))
      if 0 < offset ∧ msgs.length ≤ offset then ReadReply.data []
      else ReadReply.data (msgs.drop offset)
    | none => ReadReply.error Errno.ENOENT
  | _ => ReadReply.error Errno.ENOENT

inductive WriteReply where
  | written (n : Nat)
  | error (e : Errno)
  | noReply
deriving DecidableEq

/-- Mirrors `fn write`; the first component lists the `say` calls performed
(channel id and text), the second the reply sent, `noReply` when the source
falls through without replying.  The written count is
`text.as_bytes().len() as u32`. -/
def write (fs : DiscordFS) (ino : Nat) (offset : Nat) (data : List Nat) :
    List (Nat × String) × WriteReply :=
  match treeGet fs.files ino with
  | some file =>
    match file.ty with
    | DiscordFileType.ChannelFile _ channel =>
      let text := utf8Lossy data
      if fs.postMessage channel text then
        ([(channel, text)], WriteReply.written ((utf8Encode text).length % 4294967296))
      else
        ([(channel, text)], WriteReply.error Errno.EIO)
    | DiscordFileType.Guild => ([], WriteReply.noReply)
  | none => ([], WriteReply.noReply)

/-- Decidable test used to state claims about non-channel inodes. -/
def isChannelInode (fs : DiscordFS) (ino : Nat) : Bool :=
  match treeGet fs.files ino with
  | some file =>
    match file.ty with
    | DiscordFileType.ChannelFile _ _ => true
    | DiscordFileType.Guild => false
  | none => false

/-- One `reply.add(ino, offset, kind, name)` call of `readdir`. -/
structure DirEntry where
  ino : Nat
  off : Nat
  kind : FileType
  name : String
deriving DecidableEq

inductive ReaddirReply where
  | ok (entries : List DirEntry)
  | error (e : Errno)
deriving DecidableEq

/-- The `match file.ty` inside `readdir`'s entry construction. -/
def entryType : DiscordFileType → FileType
  | DiscordFileType.Guild => FileType.Directory
  | DiscordFileType.ChannelFile _ _ => FileType.RegularFile

/-- Mirrors `fn readdir`: synthetic `.` and `..`, children by parent in table
order, enumerated from 0, `skip(offset)`, each added with sequence number
`i + 1`. -/
def readdir (fs : DiscordFS) (ino : Nat) (offset : Nat) : ReaddirReply :=
  if (treeGet fs.files ino).isSome || ino == 1 then
    let files := fs.files.filter (fun kv => kv.2.parent == ino)
    let entries : List (Nat × FileType × String) :=
      [(1, FileType.Directory, "."), (1, FileType.Directory, "..")] ++
        files.map (fun kv => (kv.1, entryType kv.2.ty, kv.2.filename))
    ReaddirReply.ok (((entries.enum).drop offset).map
      (fun p => { ino := p.2.1, off := p.1 + 1, kind := p.2.2.1, name := p.2.2.2 }))
  else ReaddirReply.error Errno.ENOENT

/-! ### Spec-side definitions (written from the claims' wording, for
refinement comparison against the source-side functions above) -/

/-- Spec-side rendering of one message line, following the claim's words:
`author_name`, `#`, the four-digit zero-padded discriminator, `: `, then the
content alone, or the content, a space, and each attachment URL followed by
a space; finally a newline. -/
def specLine (m : Message) : String :=
  m.author.name ++ "#" ++ pad4 m.author.discriminator ++ ": " ++
    (if m.attachments = [] then m.content
     else m.content ++ " " ++ String.join (m.attachments.map (fun a => a.url ++ " "))) ++ "\n"

/-- Spec-side child entries of a directory, following the claim's words:
every record whose parent equals the inode, in table order, typed directory
for guilds and regular file for channels. -/
def specChildren (fs : DiscordFS) (ino : Nat) : List (Nat × FileType × String) :=
  (fs.files.filter (fun kv => kv.2.parent == ino)).map
    (fun kv =>
      (kv.1,
       (match kv.2.ty with
        | DiscordFileType.Guild => FileType.Directory
        | DiscordFileType.ChannelFile _ _ => FileType.RegularFile),
       kv.2.filename))

/-- Spec-side full listing, following the claim's words: entries numbered
from 1, first `.` then `..` (both inode 1, directory), then the children. -/
def specListing (fs : DiscordFS) (ino : Nat) : List DirEntry :=
  (((1, FileType.Directory, ".") :: (1, FileType.Directory, "..") ::
      specChildren fs ino).enum).map
    (fun p => { ino := p.2.1, off := p.1 + 1, kind := p.2.2.1, name := p.2.2.2 })

/-! ### Concrete fixtures used by witnesses and counterexamples -/

/-- Guild record at inode 2 in the example mount. -/
def exGuildRec : DiscordFile :=
  { filename := "G", ty := DiscordFileType.Guild, parent := 1, attr := guildAttr 2 }

/-- Channel record at inode 5 (guild 2, channel 5) in the example mount. -/
def exChanRec : DiscordFile :=
  { filename := "general", ty := DiscordFileType.ChannelFile 2 5, parent := 2,
    attr := channelAttr 5 }

/-- Scenario S3's newer message: alice, discriminator 1, `hi`, no attachments. -/
def msgAlice : Message :=
  { author := { name := "alice", discriminator := 1 }, content := "hi", attachments := [] }

/-- Scenario S3's older message: bob, discriminator 42, `yo`, one attachment. -/
def msgBob : Message :=
  { author := { name := "bob", discriminator := 42 }, content := "yo",
    attachments := [{ url := "http://x/y.png" }] }

/-- Example mounted filesystem: one guild (inode 2) with one channel
(inode 5); channel 5 serves scenario S3's two messages newest-first; posting
always succeeds. -/
def exampleFS : DiscordFS :=
  { files := [(2, exGuildRec), (5, exChanRec)],
    fetchMessages := fun c => if c = 5 then some [msgAlice, msgBob] else none,
    postMessage := fun _ _ => true }

/-- Adapter input exercising the sibling-name claim: a guild whose remote id
is 1 (the root inode) with one text channel, ids pairwise distinct. -/
def cexGuilds : List GuildData :=
  [{ id := 1, name := "x", channels := [(5, { name := "x", kind := ChannelKind.Text })] }]

/-- Scenario S1's adapter input: two guilds both named `Cats`. -/
def catsGuilds : List GuildData :=
  [{ id := 2, name := "Cats", channels := [] },
   { id := 3, name := "Cats", channels := [] }]

/-- The guild record scenario S1 expects at inode 2. -/
def catsRec2 : DiscordFile :=
  { filename := "Cats", ty := DiscordFileType.Guild, parent := 1, attr := guildAttr 2 }

/-- The guild record scenario S1 expects at inode 3. -/
def catsRec3 : DiscordFile :=
  { filename := "Cats (1)", ty := DiscordFileType.Guild, parent := 1, attr := guildAttr 3 }

/-- The "hello world" bytes of scenario S4. -/
def helloBytes : List Nat :=
  [104, 101, 108, 108, 111, 32, 119, 111, 114, 108, 100]

/-- Adapter input with one guild (id 2) holding one text channel (id 3). -/
def exBuildGuilds : List GuildData :=
  [{ id := 2, name := "G",
     channels := [(3, { name := "general", kind := ChannelKind.Text })] }]

/-- The channel record `build_file_tree exBuildGuilds` creates at key 3. -/
def exBuiltChanRec : DiscordFile :=
  { filename := "general", ty := DiscordFileType.ChannelFile 2 3, parent := 2,
    attr := channelAttr 3 }

/-- The guild record `build_file_tree cexGuilds` creates at key 1. -/
def cexGuildRec : DiscordFile :=
  { filename := "x", ty := DiscordFileType.Guild, parent := 1, attr := guildAttr 1 }

/-- The channel record `build_file_tree cexGuilds` creates at key 5; its
parent is 1 because its guild's remote id is 1. -/
def cexChanRec : DiscordFile :=
  { filename := "x", ty := DiscordFileType.ChannelFile 1 5, parent := 1,
    attr := channelAttr 5 }

/-- The bytes remaining after one `utf8Step` (`[]` for `done`). -/
def stepRest : Utf8Step → List Nat
  | Utf8Step.done => []
  | Utf8Step.char _ r => r
  | Utf8Step.bad r => r

/-- Characterization of a record produced by `build_file_tree` after
processing the guilds in `done`, with accumulated guild-name list `gnames`:
either a guild record of one of those guilds, or a text-channel record of
one of them. -/
def RecChar (done : List GuildData) (gnames : List String) (kv : Nat × DiscordFile) : Prop :=
  (kv.2.ty = DiscordFileType.Guild ∧ kv.2.parent = 1 ∧ kv.2.attr = guildAttr kv.1 ∧
    kv.1 ∈ done.map GuildData.id ∧ kv.2.filename ∈ gnames)
  ∨ (∃ g, g ∈ done ∧ ∃ ch, (kv.1, ch) ∈ g.channels ∧ ch.kind = ChannelKind.Text ∧
      kv.2.ty = DiscordFileType.ChannelFile g.id kv.1 ∧ kv.2.parent = g.id ∧
      kv.2.attr = channelAttr kv.1)

/-- Any two distinct records under the same parent carry distinct names. -/
def SibUnique (t : FileTree) : Prop :=
  ∀ kv1, kv1 ∈ t → ∀ kv2, kv2 ∈ t → kv1.2.parent = kv2.2.parent → kv1.1 ≠ kv2.1 →
    kv1.2.filename ≠ kv2.2.filename

/-- Invariant of the outer (guild) fold of `build_file_tree`. -/
def BuildInv (done : List GuildData) (st : FileTree × List String) : Prop :=
  TreeSorted st.1 ∧ (∀ kv, kv ∈ st.1 → RecChar done st.2 kv) ∧ SibUnique st.1

/-- Invariant of the inner (channel) fold while processing guild `g`, with
the guild-name list fixed at `gnames`; the state's second component is the
running per-guild channel-name list. -/
def ChanInv (done : List GuildData) (gnames : List String) (g : GuildData)
    (st : FileTree × List String) : Prop :=
  TreeSorted st.1 ∧ (∀ kv, kv ∈ st.1 → RecChar done gnames kv) ∧ SibUnique st.1 ∧
    (∀ kv, kv ∈ st.1 → kv.2.parent = g.id → kv.2.filename ∈ st.2)

/-! ### Lemmas about the UTF-8 automaton -/

theorem step2_rest_le (b0 : Nat) (l : List Nat) :
    (stepRest (step2 b0 l)).length ≤ l.length := by
  cases l with
  | nil => simp [step2, stepRest]
  | cons b1 r =>
    by_cases h : isCont b1 <;> simp [step2, h, stepRest]

theorem step3_rest_le (b0 : Nat) (l : List Nat) :
    (stepRest (step3 b0 l)).length ≤ l.length := by
  match l with
  | [] => simp [step3, stepRest]
  | [b1] =>
    by_cases h : second3ok b0 b1 <;> simp [step3, h, stepRest]
  | b1 :: b2 :: r =>
    by_cases h : second3ok b0 b1 <;> by_cases h2 : isCont b2 <;>
      simp [step3, h, h2, stepRest] <;> omega

theorem step4_rest_le (b0 : Nat) (l : List Nat) :
    (stepRest (step4 b0 l)).length ≤ l.length := by
  match l with
  | [] => simp [step4, stepRest]
  | [b1] =>
    by_cases h : second4ok b0 b1 <;> simp [step4, h, stepRest]
  | [b1, b2] =>
    by_cases h : second4ok b0 b1 <;> by_cases h2 : isCont b2 <;>
      simp [step4, h, h2, stepRest]
  | b1 :: b2 :: b3 :: r =>
    by_cases h : second4ok b0 b1 <;> by_cases h2 : isCont b2 <;> by_cases h3 : isCont b3 <;>
      simp [step4, h, h2, h3, stepRest] <;> omega

theorem step2_ne_done (b0 : Nat) (l : List Nat) : step2 b0 l ≠ Utf8Step.done := by
  cases l with
  | nil => simp [step2]
  | cons b1 r => by_cases h : isCont b1 <;> simp [step2, h]

theorem step3_ne_done (b0 : Nat) (l : List Nat) : step3 b0 l ≠ Utf8Step.done := by
  match l with
  | [] => simp [step3]
  | [b1] => by_cases h : second3ok b0 b1 <;> simp [step3, h]
  | b1 :: b2 :: r =>
    by_cases h : second3ok b0 b1 <;> by_cases h2 : isCont b2 <;> simp [step3, h, h2]

theorem step4_ne_done (b0 : Nat) (l : List Nat) : step4 b0 l ≠ Utf8Step.done := by
  match l with
  | [] => simp [step4]
  | [b1] => by_cases h : second4ok b0 b1 <;> simp [step4, h]
  | [b1, b2] =>
    by_cases h : second4ok b0 b1 <;> by_cases h2 : isCont b2 <;> simp [step4, h, h2]
  | b1 :: b2 :: b3 :: r =>
    by_cases h : second4ok b0 b1 <;> by_cases h2 : isCont b2 <;> by_cases h3 : isCont b3 <;>
      simp [step4, h, h2, h3]

theorem utf8Step_rest_lt (b0 : Nat) (l : List Nat) :
    (stepRest (utf8Step (b0 :: l))).length < (b0 :: l).length := by
  have h2 := step2_rest_le b0 l
  have h3 := step3_rest_le b0 l
  have h4 := step4_rest_le b0 l
  simp only [utf8Step]
  split_ifs <;>
    first
      | (simp only [stepRest, List.length_cons]; omega)
      | (simp only [List.length_cons]; omega)

theorem utf8Step_done_eq_nil : ∀ {l : List Nat}, utf8Step l = Utf8Step.done → l = [] := by
  intro l h
  cases l with
  | nil => rfl
  | cons b0 t =>
    exfalso
    revert h
    simp only [utf8Step]
    split_ifs <;>
      first
        | (simp; done)
        | exact step2_ne_done b0 t
        | exact step3_ne_done b0 t
        | exact step4_ne_done b0 t

theorem utf8Step_char_lt {l : List Nat} {c : Char} {rest : List Nat}
    (h : utf8Step l = Utf8Step.char c rest) : rest.length < l.length := by
  cases l with
  | nil => simp [utf8Step] at h
  | cons b0 t =>
    have := utf8Step_rest_lt b0 t
    rw [h] at this
    simpa [stepRest] using this

theorem utf8Step_bad_lt {l : List Nat} {rest : List Nat}
    (h : utf8Step l = Utf8Step.bad rest) : rest.length < l.length := by
  cases l with
  | nil => simp [utf8Step] at h
  | cons b0 t =>
    have := utf8Step_rest_lt b0 t
    rw [h] at this
    simpa [stepRest] using this

theorem utf8DecodeAux_nil (fuel : Nat) : utf8DecodeAux fuel [] = some [] := by
  cases fuel <;> simp [utf8DecodeAux, utf8Step]

theorem utf8LossyAux_nil (fuel : Nat) : utf8LossyAux fuel [] = [] := by
  cases fuel <;> simp [utf8LossyAux, utf8Step]

theorem utf8DecodeAux_fuel :
    ∀ (f1 f2 : Nat) (l : List Nat), l.length ≤ f1 → l.length ≤ f2 →
      utf8DecodeAux f1 l = utf8DecodeAux f2 l := by
  intro f1
  induction f1 with
  | zero =>
    intro f2 l h1 _
    have : l = [] := List.length_eq_zero.mp (Nat.le_zero.mp h1)
    subst this
    simp [utf8DecodeAux_nil]
  | succ f1 ih =>
    intro f2 l h1 h2
    cases l with
    | nil => simp [utf8DecodeAux_nil]
    | cons b0 t =>
      cases f2 with
      | zero => simp at h2
      | succ f2 =>
        have h1' : t.length + 1 ≤ f1 + 1 := by simpa using h1
        have h2' : t.length + 1 ≤ f2 + 1 := by simpa using h2
        show utf8DecodeAux (f1 + 1) (b0 :: t) = utf8DecodeAux (f2 + 1) (b0 :: t)
        unfold utf8DecodeAux
        cases hstep : utf8Step (b0 :: t) with
        | done => exact absurd (utf8Step_done_eq_nil hstep) (by simp)
        | char c rest =>
          have hlt : rest.length < t.length + 1 := by simpa using utf8Step_char_lt hstep
          simp only [hstep]
          rw [ih f2 rest (by omega) (by omega)]
        | bad rest => simp only [hstep]

theorem utf8LossyAux_fuel :
    ∀ (f1 f2 : Nat) (l : List Nat), l.length ≤ f1 → l.length ≤ f2 →
      utf8LossyAux f1 l = utf8LossyAux f2 l := by
  intro f1
  induction f1 with
  | zero =>
    intro f2 l h1 _
    have : l = [] := List.length_eq_zero.mp (Nat.le_zero.mp h1)
    subst this
    simp [utf8LossyAux_nil]
  | succ f1 ih =>
    intro f2 l h1 h2
    cases l with
    | nil => simp [utf8LossyAux_nil]
    | cons b0 t =>
      cases f2 with
      | zero => simp at h2
      | succ f2 =>
        have h1' : t.length + 1 ≤ f1 + 1 := by simpa using h1
        have h2' : t.length + 1 ≤ f2 + 1 := by simpa using h2
        show utf8LossyAux (f1 + 1) (b0 :: t) = utf8LossyAux (f2 + 1) (b0 :: t)
        unfold utf8LossyAux
        cases hstep : utf8Step (b0 :: t) with
        | done => exact absurd (utf8Step_done_eq_nil hstep) (by simp)
        | char c rest =>
          have hlt : rest.length < t.length + 1 := by simpa using utf8Step_char_lt hstep
          simp only [hstep]
          rw [ih f2 rest (by omega) (by omega)]
        | bad rest =>
          have hlt : rest.length < t.length + 1 := by simpa using utf8Step_bad_lt hstep
          simp only [hstep]
          rw [ih f2 rest (by omega) (by omega)]

theorem toNat_ofNat_valid {n : Nat} (h : n.isValidChar) : (Char.ofNat n).toNat = n := by
  rw [Char.ofNat, dif_pos h]
  rfl

theorem utf8EncodeChar_ofNat1 {n : Nat} (h : n < 0x80) :
    utf8EncodeChar (Char.ofNat n) = [n] := by
  have hv : (Char.ofNat n).toNat = n :=
    toNat_ofNat_valid (by simp only [Nat.isValidChar]; omega)
  simp only [utf8EncodeChar, hv]
  rw [if_pos h]

theorem utf8EncodeChar_ofNat2 {n : Nat} (h1 : 0x80 ≤ n) (h2 : n < 0x800) :
    utf8EncodeChar (Char.ofNat n) = [0xC0 + n / 64, 0x80 + n % 64] := by
  have hv : (Char.ofNat n).toNat = n :=
    toNat_ofNat_valid (by simp only [Nat.isValidChar]; omega)
  simp only [utf8EncodeChar, hv]
  rw [if_neg (by omega), if_pos h2]

theorem utf8EncodeChar_ofNat3 {n : Nat} (h1 : 0x800 ≤ n) (h2 : n < 0x10000)
    (hv0 : n.isValidChar) :
    utf8EncodeChar (Char.ofNat n) = [0xE0 + n / 4096, 0x80 + (n / 64) % 64, 0x80 + n % 64] := by
  have hv : (Char.ofNat n).toNat = n := toNat_ofNat_valid hv0
  simp only [utf8EncodeChar, hv]
  rw [if_neg (by omega), if_neg (by omega), if_pos h2]

theorem utf8EncodeChar_ofNat4 {n : Nat} (h1 : 0x10000 ≤ n) (h2 : n < 0x110000) :
    utf8EncodeChar (Char.ofNat n) =
      [0xF0 + n / 262144, 0x80 + (n / 4096) % 64, 0x80 + (n / 64) % 64, 0x80 + n % 64] := by
  have hv : (Char.ofNat n).toNat = n :=
    toNat_ofNat_valid (by simp only [Nat.isValidChar]; omega)
  simp only [utf8EncodeChar, hv]
  rw [if_neg (by omega), if_neg (by omega), if_neg (by omega)]

set_option maxRecDepth 4000 in
theorem utf8Step_char_encode : ∀ {l : List Nat} {c : Char} {rest : List Nat},
    utf8Step l = Utf8Step.char c rest → utf8EncodeChar c ++ rest = l := by
  intro l c rest h
  cases l with
  | nil => simp [utf8Step] at h
  | cons b0 t =>
    revert h
    simp only [utf8Step]
    split_ifs with h1 h2 h3 h4 h5
    · intro h
      injection h with hc hr
      subst hc
      subst hr
      rw [utf8EncodeChar_ofNat1 h1]
      rfl
    · intro h
      simp at h
    · intro h
      cases t with
      | nil => simp [step2] at h
      | cons b1 r =>
        by_cases hc1 : isCont b1
        · simp only [step2, if_pos hc1] at h
          injection h with hc hr
          subst hc
          subst hr
          unfold isCont at hc1
          rw [utf8EncodeChar_ofNat2 (by omega) (by omega)]
          simp only [List.cons_append, List.nil_append, List.cons.injEq]
          refine ⟨by omega, by omega, trivial⟩
        · simp [step2, hc1] at h
    · intro h
      rcases t with _ | ⟨b1, _ | ⟨b2, r⟩⟩
      · simp [step3] at h
      · by_cases hs : second3ok b0 b1 <;> simp [step3, hs] at h
      · by_cases hs : second3ok b0 b1
        · by_cases hc2 : isCont b2
          · simp only [step3, if_pos hs, if_pos hc2] at h
            injection h with hc hr
            subst hc
            subst hr
            unfold isCont at hc2
            unfold second3ok at hs
            split_ifs at hs with e0 ed <;>
              (rw [utf8EncodeChar_ofNat3 (by omega) (by omega)
                    (by simp only [Nat.isValidChar]; omega)]
               simp only [List.cons_append, List.nil_append, List.cons.injEq]
               refine ⟨by omega, by omega, by omega, trivial⟩)
          · simp [step3, hs, hc2] at h
        · simp [step3, hs] at h
    · intro h
      rcases t with _ | ⟨b1, _ | ⟨b2, _ | ⟨b3, r⟩⟩⟩
      · simp [step4] at h
      · by_cases hs : second4ok b0 b1 <;> simp [step4, hs] at h
      · by_cases hs : second4ok b0 b1 <;> by_cases hc2 : isCont b2 <;>
          simp [step4, hs, hc2] at h
      · by_cases hs : second4ok b0 b1
        · by_cases hc2 : isCont b2
          · by_cases hc3 : isCont b3
            · simp only [step4, if_pos hs, if_pos hc2, if_pos hc3] at h
              injection h with hc hr
              subst hc
              subst hr
              unfold isCont at hc2 hc3
              unfold second4ok at hs
              split_ifs at hs with f0 f4 <;>
                (rw [utf8EncodeChar_ofNat4 (by omega) (by omega)]
                 simp only [List.cons_append, List.nil_append, List.cons.injEq]
                 refine ⟨by omega, by omega, by omega, by omega, trivial⟩)
            · simp [step4, hs, hc2, hc3] at h
          · simp [step4, hs, hc2] at h
        · simp [step4, hs] at h
    · intro h
      simp at h

theorem lossy_of_decode :
    ∀ (fuel : Nat) (l : List Nat) (cs : List Char), l.length ≤ fuel →
      utf8DecodeAux fuel l = some cs → utf8LossyAux fuel l = cs := by
  intro fuel
  induction fuel with
  | zero =>
    intro l cs h1 h2
    have hl : l = [] := List.length_eq_zero.mp (Nat.le_zero.mp h1)
    subst hl
    rw [utf8DecodeAux_nil] at h2
    rw [utf8LossyAux_nil]
    exact Option.some.inj h2
  | succ f ih =>
    intro l cs h1 h2
    cases l with
    | nil =>
      rw [utf8DecodeAux_nil] at h2
      rw [utf8LossyAux_nil]
      exact Option.some.inj h2
    | cons b0 t =>
      have h1' : t.length + 1 ≤ f + 1 := by simpa using h1
      unfold utf8DecodeAux at h2
      unfold utf8LossyAux
      cases hstep : utf8Step (b0 :: t) with
      | done => exact absurd (utf8Step_done_eq_nil hstep) (by simp)
      | char c rest =>
        simp only [hstep] at h2
        rw [Option.map_eq_some'] at h2
        obtain ⟨cs', hrec, hcs⟩ := h2
        have hlt : rest.length < t.length + 1 := by simpa using utf8Step_char_lt hstep
        simp only [hstep]
        rw [ih rest cs' (by omega) hrec]
        exact hcs
      | bad rest =>
        rw [hstep] at h2
        simp at h2

theorem encode_of_decode :
    ∀ (fuel : Nat) (l : List Nat) (cs : List Char), l.length ≤ fuel →
      utf8DecodeAux fuel l = some cs → utf8EncodeList cs = l := by
  intro fuel
  induction fuel with
  | zero =>
    intro l cs h1 h2
    have hl : l = [] := List.length_eq_zero.mp (Nat.le_zero.mp h1)
    subst hl
    rw [utf8DecodeAux_nil] at h2
    obtain rfl : ([] : List Char) = cs := Option.some.inj h2
    simp [utf8EncodeList]
  | succ f ih =>
    intro l cs h1 h2
    cases l with
    | nil =>
      rw [utf8DecodeAux_nil] at h2
      obtain rfl : ([] : List Char) = cs := Option.some.inj h2
      simp [utf8EncodeList]
    | cons b0 t =>
      have h1' : t.length + 1 ≤ f + 1 := by simpa using h1
      unfold utf8DecodeAux at h2
      cases hstep : utf8Step (b0 :: t) with
      | done => exact absurd (utf8Step_done_eq_nil hstep) (by simp)
      | char c rest =>
        simp only [hstep] at h2
        rw [Option.map_eq_some'] at h2
        obtain ⟨cs', hrec, hcs⟩ := h2
        have hlt : rest.length < t.length + 1 := by simpa using utf8Step_char_lt hstep
        subst hcs
        have henc := utf8Step_char_encode hstep
        have htail := ih rest cs' (by omega) hrec
        calc utf8EncodeList (c :: cs')
            = utf8EncodeChar c ++ utf8EncodeList cs' := by simp [utf8EncodeList]
          _ = utf8EncodeChar c ++ rest := by rw [htail]
          _ = b0 :: t := henc
      | bad rest =>
        rw [hstep] at h2
        simp at h2

theorem utf8Lossy_of_decode {l : List Nat} {cs : List Char} (h : utf8Decode l = some cs) :
    utf8Lossy l = String.mk cs := by
  unfold utf8Lossy
  rw [lossy_of_decode l.length l cs le_rfl h]

theorem utf8Encode_lossy_of_decode {l : List Nat} {cs : List Char}
    (h : utf8Decode l = some cs) : utf8Encode (utf8Lossy l) = l := by
  rw [utf8Lossy_of_decode h]
  show utf8EncodeList cs = l
  exact encode_of_decode l.length l cs le_rfl h

/-! ### Decimal printing is injective -/

theorem natDigitsAux_append (fuel : Nat) :
    ∀ (n : Nat) (acc : List Char), natDigitsAux fuel n acc = natDigitsAux fuel n [] ++ acc := by
  induction fuel with
  | zero => intro n acc; simp [natDigitsAux]
  | succ f ih =>
    intro n acc
    by_cases h : n < 10
    · simp [natDigitsAux, h]
    · simp only [natDigitsAux, if_neg h]
      rw [ih (n / 10) (Char.ofNat (48 + n % 10) :: acc),
          ih (n / 10) [Char.ofNat (48 + n % 10)]]
      simp

theorem digitsVal_natDigitsAux :
    ∀ (fuel n : Nat), n < 10 ^ fuel → digitsVal (natDigitsAux fuel n []) = n := by
  intro fuel
  induction fuel with
  | zero =>
    intro n h
    rw [pow_zero] at h
    have hn : n = 0 := by omega
    subst hn
    simp [natDigitsAux, digitsVal]
  | succ f ih =>
    intro n h
    have hc : (Char.ofNat (48 + n % 10)).toNat = 48 + n % 10 :=
      toNat_ofNat_valid (by simp only [Nat.isValidChar]; omega)
    by_cases hn : n < 10
    · simp only [natDigitsAux, if_pos hn]
      simp [digitsVal, hc]
      omega
    · simp only [natDigitsAux, if_neg hn]
      rw [natDigitsAux_append]
      unfold digitsVal
      rw [List.foldl_append]
      have hp : (10:Nat) ^ (f + 1) = 10 ^ f * 10 := pow_succ 10 f
      have hdiv : n / 10 < 10 ^ f := by omega
      have hrec := ih (n / 10) hdiv
      unfold digitsVal at hrec
      rw [hrec]
      simp [hc]
      omega

theorem natToString_inj {m n : Nat} (h : natToString m = natToString n) : m = n := by
  have hd : natDigitsAux (m + 1) m [] = natDigitsAux (n + 1) n [] :=
    congrArg String.data h
  have hm : m + 1 < 10 ^ (m + 1) := Nat.lt_pow_self (by norm_num) (m + 1)
  have hn : n + 1 < 10 ^ (n + 1) := Nat.lt_pow_self (by norm_num) (n + 1)
  have h1 := digitsVal_natDigitsAux (m + 1) m (by omega)
  have h2 := digitsVal_natDigitsAux (n + 1) n (by omega)
  rw [← h1, ← h2, hd]

theorem candidate_inj {base : String} {m n : Nat} (h : candidate base m = candidate base n) :
    m = n := by
  unfold candidate at h
  have hd := congrArg String.data h
  simp only [String.data_append, List.append_assoc] at hd
  have hd1 := List.append_cancel_left hd
  have hd2 := List.append_cancel_left hd1
  have hd3 := List.append_cancel_right hd2
  exact natToString_inj (congrArg String.mk hd3)

/-! ### The Name Uniquifier satisfies its contract -/

theorem candidate_ne_base (base : String) (i : Nat) : candidate base i ≠ base := by
  intro h
  have hlen := congrArg (fun s => s.data.length) h
  simp only [candidate, String.data_append, List.length_append, List.length_cons,
    List.length_nil] at hlen
  omega

theorem exists_free_candidate (base : String) (known : List String) :
    ∃ j, 1 ≤ j ∧ j ≤ known.length + 1 ∧ candidate base j ∉ known := by
  by_contra hall
  push_neg at hall
  have hsub : ((List.range' 1 (known.length + 1)).map (candidate base)) ⊆ known := by
    intro s hs
    rw [List.mem_map] at hs
    obtain ⟨j, hj, rfl⟩ := hs
    rw [List.mem_range'_1] at hj
    exact hall j hj.1 (by omega)
  have hnd : ((List.range' 1 (known.length + 1)).map (candidate base)).Nodup := by
    refine List.Nodup.map ?_ (List.nodup_range' 1 (known.length + 1))
    intro a b hab
    exact candidate_inj hab
  have hlen : ((List.range' 1 (known.length + 1)).map (candidate base)).length
      = known.length + 1 := by
    simp
  have hcard1 : ((List.range' 1 (known.length + 1)).map (candidate base)).toFinset.card
      = known.length + 1 := by
    rw [List.toFinset_card_of_nodup hnd, hlen]
  have hcard2 : ((List.range' 1 (known.length + 1)).map (candidate base)).toFinset.card
      ≤ known.toFinset.card := by
    apply Finset.card_le_card
    intro x hx
    rw [List.mem_toFinset] at hx ⊢
    exact hsub hx
  have := List.toFinset_card_le known
  omega

theorem uniqueNameLoop_spec (base : String) (known : List String) :
    ∀ (fuel i : Nat), (∃ j, i ≤ j ∧ j < i + fuel ∧ candidate base j ∉ known) →
      ∃ n, i ≤ n ∧ uniqueNameLoop base known fuel i = candidate base n ∧
        candidate base n ∉ known ∧ ∀ m, i ≤ m → m < n → candidate base m ∈ known := by
  intro fuel
  induction fuel with
  | zero =>
    intro i h
    obtain ⟨j, hj1, hj2, _⟩ := h
    omega
  | succ f ih =>
    intro i h
    by_cases hc : candidate base i ∈ known
    · simp only [uniqueNameLoop, if_pos hc]
      obtain ⟨j, hj1, hj2, hj3⟩ := h
      have hji : j ≠ i := fun he => hj3 (he ▸ hc)
      obtain ⟨n, hn1, hn2, hn3, hn4⟩ := ih (i + 1) ⟨j, by omega, by omega, hj3⟩
      refine ⟨n, by omega, hn2, hn3, ?_⟩
      intro m hm1 hm2
      by_cases hmi : m = i
      · exact hmi ▸ hc
      · exact hn4 m (by omega) hm2
    · simp only [uniqueNameLoop, if_neg hc]
      exact ⟨i, le_rfl, rfl, hc, fun m hm1 hm2 => absurd (by omega : i < i) (lt_irrefl i)⟩

/-- Helper: `unique_name` returns the base unchanged when it is absent, and
otherwise the candidate with the least index `n ≥ 1` that is absent. -/
theorem unique_name_spec (base : String) (known : List String) :
    (base ∉ known → unique_name base known = base) ∧
    (base ∈ known → ∃ n, 1 ≤ n ∧ unique_name base known = candidate base n ∧
      candidate base n ∉ known ∧ ∀ m, 1 ≤ m → m < n → candidate base m ∈ known) := by
  constructor
  · intro h
    simp [unique_name, h]
  · intro h
    simp only [unique_name, if_pos h]
    obtain ⟨j, hj1, hj2, hj3⟩ := exists_free_candidate base known
    obtain ⟨n, hn1, hn2, hn3, hn4⟩ :=
      uniqueNameLoop_spec base known (known.length + 1) 1 ⟨j, hj1, by omega, hj3⟩
    exact ⟨n, hn1, hn2, hn3, fun m hm1 hm2 => hn4 m hm1 hm2⟩

/-- The result of `unique_name` is never in the known list. -/
theorem unique_name_not_mem (base : String) (known : List String) :
    unique_name base known ∉ known := by
  by_cases h : base ∈ known
  · obtain ⟨n, _, heq, hfree, _⟩ := (unique_name_spec base known).2 h
    rw [heq]
    exact hfree
  · rw [(unique_name_spec base known).1 h]
    exact h

/-! ### Inode-table lemmas -/

theorem mem_treeInsert {t : FileTree} {k : Nat} {v : DiscordFile} :
    ∀ {kv : Nat × DiscordFile}, kv ∈ treeInsert t k v → kv = (k, v) ∨ kv ∈ t := by
  induction t with
  | nil =>
    intro kv h
    rw [treeInsert] at h
    exact Or.inl (List.mem_singleton.mp h)
  | cons kv' rest ih =>
    intro kv h
    unfold treeInsert at h
    split_ifs at h with h1 h2
    · rcases List.mem_cons.mp h with h | h
      · exact Or.inl h
      · exact Or.inr h
    · rcases List.mem_cons.mp h with h | h
      · exact Or.inl h
      · exact Or.inr (List.mem_cons_of_mem kv' h)
    · rcases List.mem_cons.mp h with h | h
      · exact Or.inr (h ▸ List.mem_cons_self kv' rest)
      · rcases ih h with h | h
        · exact Or.inl h
        · exact Or.inr (List.mem_cons_of_mem kv' h)

theorem treeInsert_sorted {t : FileTree} (h : TreeSorted t) (k : Nat) (v : DiscordFile) :
    TreeSorted (treeInsert t k v) := by
  induction t with
  | nil =>
    simp [treeInsert, TreeSorted]
  | cons kv' rest ih =>
    unfold TreeSorted at h ⊢
    rw [List.pairwise_cons] at h
    obtain ⟨hhead, htail⟩ := h
    unfold treeInsert
    split_ifs with h1 h2
    · rw [List.pairwise_cons]
      refine ⟨?_, ?_⟩
      · intro kv hkv
        rcases List.mem_cons.mp hkv with rfl | hkv
        · exact h1
        · exact lt_trans h1 (hhead kv hkv)
      · rw [List.pairwise_cons]
        exact ⟨hhead, htail⟩
    · rw [List.pairwise_cons]
      refine ⟨?_, htail⟩
      intro kv hkv
      have := hhead kv hkv
      omega
    · rw [List.pairwise_cons]
      refine ⟨?_, ih htail⟩
      intro kv hkv
      rcases mem_treeInsert hkv with rfl | hkv
      · omega
      · exact hhead kv hkv

theorem sorted_mem_same_key {t : FileTree} (hs : TreeSorted t) :
    ∀ {kv1 kv2 : Nat × DiscordFile}, kv1 ∈ t → kv2 ∈ t → kv1.1 = kv2.1 → kv1 = kv2 := by
  induction t with
  | nil =>
    intro kv1 kv2 h1 _ _
    simp at h1
  | cons kv rest ih =>
    unfold TreeSorted at hs
    rw [List.pairwise_cons] at hs
    obtain ⟨hhead, htail⟩ := hs
    intro kv1 kv2 h1 h2 hk
    rcases List.mem_cons.mp h1 with he1 | hm1
    · rcases List.mem_cons.mp h2 with he2 | hm2
      · exact he1.trans he2.symm
      · have hlt := hhead kv2 hm2
        have h1k : kv1.1 = kv.1 := by rw [he1]
        exact absurd hk (by omega)
    · rcases List.mem_cons.mp h2 with he2 | hm2
      · have hlt := hhead kv1 hm1
        have h2k : kv2.1 = kv.1 := by rw [he2]
        exact absurd hk (by omega)
      · exact ih htail hm1 hm2 hk

/-! ### Generic fold-invariant helpers -/

theorem foldl_inv_mem {α σ : Type _} (f : σ → α → σ) (P : σ → Prop) :
    ∀ (l : List α) (s : σ), P s → (∀ s2 a, a ∈ l → P s2 → P (f s2 a)) → P (l.foldl f s) := by
  intro l
  induction l with
  | nil =>
    intro s hP _
    simpa using hP
  | cons a t ih =>
    intro s hP hstep
    rw [List.foldl_cons]
    exact ih (f s a) (hstep s a (List.mem_cons_self a t) hP)
      (fun s2 b hb h => hstep s2 b (List.mem_cons_of_mem a hb) h)

theorem foldl_inv_full {α σ : Type _} (f : σ → α → σ) (full : List α)
    (P : List α → σ → Prop) :
    ∀ (l done : List α) (s : σ), done ++ l = full → P done s →
      (∀ d a l2 s2, d ++ a :: l2 = full → P d s2 → P (d ++ [a]) (f s2 a)) →
      P full (l.foldl f s) := by
  intro l
  induction l with
  | nil =>
    intro done s hfull hP _
    rw [List.append_nil] at hfull
    rw [List.foldl_nil]
    exact hfull ▸ hP
  | cons a t ih =>
    intro done s hfull hP hstep
    rw [List.foldl_cons]
    have h2 : (done ++ [a]) ++ t = full := by simpa using hfull
    exact ih (done ++ [a]) (f s a) h2 (hstep done a t s hfull hP) hstep

/-! ### Invariants of the Namespace Builder -/

theorem RecChar_extend {d : List GuildData} {gn : List String} {kv : Nat × DiscordFile}
    (g : GuildData) (nm : String) (h : RecChar d gn kv) :
    RecChar (d ++ [g]) (gn ++ [nm]) kv := by
  rcases h with ⟨h1, h2, h3, h4, h5⟩ | ⟨g2, hg2, ch, hch, hkind, hty, hpar, hattr⟩
  · exact Or.inl ⟨h1, h2, h3, by rw [List.map_append]; exact List.mem_append_left _ h4,
      List.mem_append_left _ h5⟩
  · exact Or.inr ⟨g2, List.mem_append_left _ hg2, ch, hch, hkind, hty, hpar, hattr⟩

theorem RecChar_parent_one {d : List GuildData} {gn : List String} {kv : Nat × DiscordFile}
    (h : RecChar d gn kv) (hOne : ∀ g2, g2 ∈ d → g2.id ≠ 1) (hp : kv.2.parent = 1) :
    kv.2.filename ∈ gn := by
  rcases h with ⟨_, _, _, _, h5⟩ | ⟨g2, hg2, _, _, _, _, hpar, _⟩
  · exact h5
  · exact absurd (hpar ▸ hp) (hOne g2 hg2)

theorem RecChar_parent_ne {d : List GuildData} {gn : List String} {kv : Nat × DiscordFile}
    {g : GuildData} (h : RecChar d gn kv) (hnew : g.id ∉ d.map GuildData.id)
    (hgid : g.id ≠ 1) : kv.2.parent ≠ g.id := by
  rcases h with ⟨_, h2, _, _, _⟩ | ⟨g2, hg2, _, _, _, _, hpar, _⟩
  · rw [h2]
    exact fun he => hgid he.symm
  · rw [hpar]
    intro he
    exact hnew (he ▸ List.mem_map_of_mem GuildData.id hg2)

theorem channelStep_inv {done : List GuildData} {gnames : List String} {g : GuildData}
    (hg : g ∈ done) {st : FileTree × List String} {ch : Nat × ChannelData}
    (hch : ch ∈ g.channels) (hinv : ChanInv done gnames g st) :
    ChanInv done gnames g (channelStep g.id st ch) := by
  obtain ⟨hsort, hrec, hsib, hnames⟩ := hinv
  unfold channelStep
  by_cases hkind : ch.2.kind = ChannelKind.Text
  · rw [if_pos hkind]
    have hfresh := unique_name_not_mem ch.2.name st.2
    refine ⟨treeInsert_sorted hsort _ _, ?_, ?_, ?_⟩
    · intro kv hkv
      rcases mem_treeInsert hkv with rfl | hold
      · refine Or.inr ⟨g, hg, ch.2, ?_, hkind, rfl, rfl, rfl⟩
        simpa using hch
      · exact hrec kv hold
    · intro kv1 h1 kv2 h2 hpar hne
      rcases mem_treeInsert h1 with he1 | h1 <;> rcases mem_treeInsert h2 with he2 | h2
      · rw [he1, he2] at hne
        exact absurd rfl hne
      · subst he1
        intro he
        have hm := hnames kv2 h2 hpar.symm
        rw [← he] at hm
        exact hfresh hm
      · subst he2
        intro he
        have hm := hnames kv1 h1 hpar
        rw [he] at hm
        exact hfresh hm
      · exact hsib kv1 h1 kv2 h2 hpar hne
    · intro kv hkv hpar
      rcases mem_treeInsert hkv with rfl | hold
      · exact List.mem_append_right _ (List.mem_singleton_self _)
      · exact List.mem_append_left _ (hnames kv hold hpar)
  · rw [if_neg hkind]
    exact ⟨hsort, hrec, hsib, hnames⟩

theorem guildStep_inv {guilds d l2 : List GuildData} {g : GuildData}
    (hfull : d ++ g :: l2 = guilds)
    (hnd : (guilds.map GuildData.id).Nodup)
    (hOne : ∀ g2, g2 ∈ guilds → g2.id ≠ 1)
    {st : FileTree × List String} (hinv : BuildInv d st) :
    BuildInv (d ++ [g]) (guildStep st g) := by
  obtain ⟨hsort, hrec, hsib⟩ := hinv
  have hgmem : g ∈ guilds := by
    rw [← hfull]
    exact List.mem_append_right d (List.mem_cons_self g l2)
  have hdmem : ∀ g2, g2 ∈ d → g2 ∈ guilds := by
    intro g2 h
    rw [← hfull]
    exact List.mem_append_left _ h
  have hgid : g.id ≠ 1 := hOne g hgmem
  have hdOne : ∀ g2, g2 ∈ d → g2.id ≠ 1 := fun g2 h => hOne g2 (hdmem g2 h)
  have hnewid : g.id ∉ d.map GuildData.id := by
    rw [← hfull, List.map_append] at hnd
    have hdisj := (List.nodup_append.mp hnd).2.2
    intro hmem
    exact hdisj hmem (List.mem_map_of_mem GuildData.id (List.mem_cons_self g l2))
  have hfresh := unique_name_not_mem g.name st.2
  have hstart : ChanInv (d ++ [g]) (st.2 ++ [unique_name g.name st.2]) g
      (treeInsert st.1 g.id
        { filename := unique_name g.name st.2, ty := DiscordFileType.Guild, parent := 1,
          attr := guildAttr g.id }, []) := by
    refine ⟨treeInsert_sorted hsort _ _, ?_, ?_, ?_⟩
    · intro kv hkv
      rcases mem_treeInsert hkv with he | hold
      · subst he
        exact Or.inl ⟨rfl, rfl, rfl, by simp, List.mem_append_right _ (by simp)⟩
      · exact RecChar_extend g _ (hrec kv hold)
    · intro kv1 h1 kv2 h2 hpar hne
      rcases mem_treeInsert h1 with he1 | hm1
      · rcases mem_treeInsert h2 with he2 | hm2
        · rw [he1, he2] at hne
          exact absurd rfl hne
        · subst he1
          intro he
          have hmem2 := RecChar_parent_one (hrec kv2 hm2) hdOne hpar.symm
          rw [← he] at hmem2
          exact hfresh hmem2
      · rcases mem_treeInsert h2 with he2 | hm2
        · subst he2
          intro he
          have hmem1 := RecChar_parent_one (hrec kv1 hm1) hdOne hpar
          rw [he] at hmem1
          exact hfresh hmem1
        · exact hsib kv1 hm1 kv2 hm2 hpar hne
    · intro kv hkv hp
      rcases mem_treeInsert hkv with he | hold
      · subst he
        exact absurd hp.symm hgid
      · exact absurd hp (RecChar_parent_ne (hrec kv hold) hnewid hgid)
  have hgmem2 : g ∈ d ++ [g] := List.mem_append_right d (List.mem_singleton_self g)
  have hfold := foldl_inv_mem (channelStep g.id)
    (ChanInv (d ++ [g]) (st.2 ++ [unique_name g.name st.2]) g) g.channels
    (treeInsert st.1 g.id
      { filename := unique_name g.name st.2, ty := DiscordFileType.Guild, parent := 1,
        attr := guildAttr g.id }, [])
    hstart
    (fun s2 ch hch hI => channelStep_inv hgmem2 hch hI)
  obtain ⟨hs2, hr2, hsib2, _⟩ := hfold
  exact ⟨hs2, hr2, hsib2⟩

theorem build_file_tree_inv (guilds : List GuildData)
    (hnd : (guilds.map GuildData.id).Nodup) (hOne : ∀ g2, g2 ∈ guilds → g2.id ≠ 1) :
    BuildInv guilds (guilds.foldl guildStep ([], [])) := by
  refine foldl_inv_full guildStep guilds BuildInv guilds [] ([], []) rfl ?_ ?_
  · refine ⟨List.Pairwise.nil, ?_, ?_⟩
    · intro kv h
      simp at h
    · intro kv1 h1
      simp at h1
  · intro d a l2 s2 hfull hP
    exact guildStep_inv hfull hnd hOne hP

theorem allIds_guild_facts {guilds : List GuildData}
    (hnd : (allIds guilds).Nodup) (h1 : 1 ∉ allIds guilds) :
    (guilds.map GuildData.id).Nodup ∧ ∀ g2, g2 ∈ guilds → g2.id ≠ 1 := by
  constructor
  · unfold allIds at hnd
    exact (List.nodup_append.mp hnd).1
  · intro g2 hg2 he
    apply h1
    unfold allIds
    exact List.mem_append_left _ (he ▸ List.mem_map_of_mem GuildData.id hg2)

/-! ### Reading: rendering and offset semantics -/

theorem renderMessage_eq_specLine : renderMessage = specLine := by
  funext m
  unfold renderMessage specLine attachmentsText
  rcases hm : m.attachments with _ | ⟨a, t⟩ <;> simp

/-- Claim C1: for every channel-file inode, `read` renders the fetched
messages oldest-first (reversing the adapter's newest-first order) and at
offset 0 replies the byte-exact concatenation of one line per message,
each line being `specLine` — author, `#`, four-digit zero-padded
discriminator, `: `, the content alone or the content followed by a space
and each attachment URL followed by a space, then a newline. -/
theorem read_renders_oldest_first (fs : DiscordFS) (ino size g c : Nat)
    (file : DiscordFile) (msgs : List Message)
    (hget : treeGet fs.files ino = some file)
    (hty : file.ty = DiscordFileType.ChannelFile g c)
    (hfetch : fs.fetchMessages c = some msgs) :
    read fs ino 0 size =
      ReadReply.data (utf8Encode (String.join ((msgs.reverse).map specLine))) := by
  unfold read
  simp only [hget, Option.map_some', hty, hfetch]
  rw [if_neg (by simp)]
  rw [List.drop_zero, renderMessage_eq_specLine]

/-- Witness for C1: scenario S3 — alice then bob newest-first renders as
`bob#0042: yo http://x/y.png \nalice#0001: hi\n`. -/
theorem read_renders_oldest_first_witness :
    read exampleFS 5 0 0 =
      ReadReply.data (utf8Encode ("bob#0042: yo http://x/y.png \nalice#0001: hi\n")) := by
  have h := read_renders_oldest_first exampleFS 5 0 2 5 exChanRec [msgAlice, msgBob]
    (by decide) rfl rfl
  rw [h]
  decide

/-- Claim C4: for a channel file whose rendered transcript is `B`: a read at
`offset > 0` with `offset ≥ len B` replies the empty slice; a read at offset
0 replies the whole of `B`; a read at `offset < len B` replies `B[offset..]`;
and the reply never depends on the `size` argument. -/
theorem read_offset_spec (fs : DiscordFS) (ino off size g c : Nat)
    (file : DiscordFile) (msgs : List Message)
    (hget : treeGet fs.files ino = some file)
    (hty : file.ty = DiscordFileType.ChannelFile g c)
    (hfetch : fs.fetchMessages c = some msgs) :
    (0 < off → (utf8Encode (String.join ((msgs.reverse).map renderMessage))).length ≤ off →
      read fs ino off size = ReadReply.data []) ∧
    (read fs ino 0 size =
      ReadReply.data (utf8Encode (String.join ((msgs.reverse).map renderMessage)))) ∧
    (off < (utf8Encode (String.join ((msgs.reverse).map renderMessage))).length →
      read fs ino off size =
        ReadReply.data
          ((utf8Encode (String.join ((msgs.reverse).map renderMessage))).drop off)) ∧
    (∀ size2, read fs ino off size2 = read fs ino off size) := by
  have hbody : ∀ size2 off2, read fs ino off2 size2 =
      if 0 < off2 ∧ (utf8Encode (String.join ((msgs.reverse).map renderMessage))).length ≤ off2
      then ReadReply.data []
      else ReadReply.data
        ((utf8Encode (String.join ((msgs.reverse).map renderMessage))).drop off2) := by
    intro size2 off2
    unfold read
    simp only [hget, Option.map_some', hty, hfetch]
  refine ⟨?_, ?_, ?_, ?_⟩
  · intro h1 h2
    rw [hbody size off, if_pos ⟨h1, h2⟩]
  · rw [hbody size 0, if_neg (by simp), List.drop_zero]
  · intro h
    rw [hbody size off, if_neg (by omega)]
  · intro size2
    rw [hbody size off, hbody size2 off]

/-- Witness for C4 at the example mount: end-of-file at a large offset,
full buffer at offset 0, and a strict suffix at offset 4; the size argument
is irrelevant. -/
theorem read_offset_spec_witness :
    read exampleFS 5 1000 0 = ReadReply.data [] ∧
    read exampleFS 5 0 0 =
      ReadReply.data (utf8Encode (String.join (([msgAlice, msgBob].reverse).map renderMessage))) ∧
    read exampleFS 5 4 0 =
      ReadReply.data
        ((utf8Encode (String.join (([msgAlice, msgBob].reverse).map renderMessage))).drop 4) ∧
    read exampleFS 5 4 99 = read exampleFS 5 4 0 := by
  have h0 := read_offset_spec exampleFS 5 1000 0 2 5 exChanRec [msgAlice, msgBob]
    (by decide) rfl rfl
  have h4 := read_offset_spec exampleFS 5 4 0 2 5 exChanRec [msgAlice, msgBob]
    (by decide) rfl rfl
  refine ⟨h0.1 (by omega) (by decide), h0.2.1, h4.2.2.1 (by decide), h4.2.2.2 99⟩

/-! ### Writing -/

/-- Claim C5: for every inode that is not a channel file (a guild inode or an
inode absent from the table) `write` sends no reply at all and performs no
post; for every inode the `offset` argument has no effect on the result. -/
theorem write_nonchannel_silent (fs : DiscordFS) (ino off : Nat) (data : List Nat) :
    (isChannelInode fs ino = false → write fs ino off data = ([], WriteReply.noReply)) ∧
    (∀ off2, write fs ino off2 data = write fs ino off data) := by
  constructor
  · intro h
    unfold isChannelInode at h
    cases hget : treeGet fs.files ino with
    | none => simp only [write, hget]
    | some file =>
      simp only [hget] at h
      cases hty : file.ty with
      | Guild => simp only [write, hget, hty]
      | ChannelFile g c => simp [hty] at h
  · intro off2
    rfl

/-- Witness for C5: inode 2 is a guild directory; a write to it is dropped
with no reply, at any offset. -/
theorem write_nonchannel_silent_witness :
    isChannelInode exampleFS 2 = false ∧
    write exampleFS 2 0 helloBytes = ([], WriteReply.noReply) ∧
    write exampleFS 2 7 helloBytes = write exampleFS 2 0 helloBytes := by
  refine ⟨by decide, ?_, ?_⟩
  · exact (write_nonchannel_silent exampleFS 2 0 helloBytes).1 (by decide)
  · exact (write_nonchannel_silent exampleFS 2 0 helloBytes).2 7

/-- Counterexample to claim C2 as stated: writing the single byte 0xFF to a
channel file posts the replacement character U+FFFD and, on success, replies
that 3 bytes were written — not `len(data) = 1`. -/
theorem write_reply_length_counterexample :
    (write exampleFS 5 0 [255]).2 = WriteReply.written 3 ∧
    (write exampleFS 5 0 [255]).2 ≠ WriteReply.written (([255] : List Nat).length) := by
  decide

/-- Claim C2 (amended): for every channel-file inode, `write` posts exactly
one message, whose text is the lossy UTF-8 decoding of `data` (invalid
sequences replaced, no error); on adapter success it replies that the byte
length of the UTF-8 re-encoding of that text was written (as a `u32`) —
which equals `len(data)` whenever `data` is valid UTF-8 — and on adapter
failure it replies `EIO`. -/
theorem write_channel_spec (fs : DiscordFS) (ino off : Nat) (data : List Nat)
    (g c : Nat) (file : DiscordFile)
    (hget : treeGet fs.files ino = some file)
    (hty : file.ty = DiscordFileType.ChannelFile g c) :
    (write fs ino off data).1 = [(c, utf8Lossy data)] ∧
    (fs.postMessage c (utf8Lossy data) = true →
      (write fs ino off data).2 =
        WriteReply.written ((utf8Encode (utf8Lossy data)).length % 4294967296)) ∧
    (fs.postMessage c (utf8Lossy data) = false →
      (write fs ino off data).2 = WriteReply.error Errno.EIO) ∧
    (∀ cs, utf8Decode data = some cs →
      (utf8Encode (utf8Lossy data)).length = data.length) := by
  have hbody : write fs ino off data =
      if fs.postMessage c (utf8Lossy data) then
        ([(c, utf8Lossy data)],
          WriteReply.written ((utf8Encode (utf8Lossy data)).length % 4294967296))
      else ([(c, utf8Lossy data)], WriteReply.error Errno.EIO) := by
    simp only [write, hget, hty]
  refine ⟨?_, ?_, ?_, ?_⟩
  · rw [hbody]
    by_cases hp : fs.postMessage c (utf8Lossy data) <;> simp [hp]
  · intro hp
    rw [hbody, if_pos hp]
  · intro hp
    rw [hbody, if_neg (by rw [hp]; exact Bool.false_ne_true)]
  · intro cs hcs
    rw [utf8Encode_lossy_of_decode hcs]

/-- Witness for C2: scenario S4 — writing `hello world` posts once to
channel 5 and reports 11 bytes written. -/
theorem write_channel_spec_witness :
    (write exampleFS 5 0 helloBytes).1 = [(5, utf8Lossy helloBytes)] ∧
    (write exampleFS 5 0 helloBytes).2 = WriteReply.written 11 := by
  have h := write_channel_spec exampleFS 5 0 helloBytes 2 5 exChanRec (by decide) rfl
  refine ⟨h.1, ?_⟩
  rw [h.2.1 rfl]
  decide

/-! ### readdir -/

/-- Counterexample to claim C3 as stated: inode 5 holds a channel-file
record (not a guild directory and not the root), yet `readdir` replies with
a listing rather than `ENOENT`. -/
theorem readdir_channel_inode_counterexample :
    treeGet exampleFS.files 5 = some exChanRec ∧
    exChanRec.ty = DiscordFileType.ChannelFile 2 5 ∧
    readdir exampleFS 5 0 ≠ ReaddirReply.error Errno.ENOENT ∧
    readdir exampleFS 5 0 =
      ReaddirReply.ok
        [{ ino := 1, off := 1, kind := FileType.Directory, name := "." },
         { ino := 1, off := 2, kind := FileType.Directory, name := ".." }] := by
  decide

/-- Claim C3 (amended): `readdir` replies `ENOENT` exactly when the inode is
neither the root inode 1 nor present in the table — in particular for an
inode absent from the table; a present channel-file inode instead gets a
listing. -/
theorem readdir_enoent_iff (fs : DiscordFS) (ino off : Nat) :
    readdir fs ino off = ReaddirReply.error Errno.ENOENT ↔
      (ino ≠ 1 ∧ treeGet fs.files ino = none) := by
  unfold readdir
  by_cases h : (treeGet fs.files ino).isSome || ino == 1
  · rw [if_pos h]
    constructor
    · intro hco
      exact absurd hco (by simp)
    · rintro ⟨hne, hnone⟩
      rw [Bool.or_eq_true] at h
      rcases h with h | h
      · rw [hnone] at h
        exact absurd h (by simp)
      · rw [beq_iff_eq] at h
        exact absurd h hne
  · rw [if_neg h]
    rw [Bool.or_eq_true, not_or] at h
    obtain ⟨h1, h2⟩ := h
    constructor
    · intro _
      refine ⟨fun he => h2 (by rw [he]; rfl), ?_⟩
      cases hg : treeGet fs.files ino with
      | none => rfl
      | some f =>
        rw [hg] at h1
        exact absurd rfl h1
    · intro _
      rfl

/-! ### lookup -/

/-- Claim C10: `lookup` panics (via `to_str().expect`) whenever the name
bytes are not valid UTF-8, and only replies — with an entry or with
`ENOENT` — when the name is valid UTF-8. -/
theorem lookup_utf8_spec (fs : DiscordFS) (parent : Nat) (name : List Nat) :
    (utf8Decode name = none → lookup fs parent name = LookupReply.panicked) ∧
    (∀ cs, utf8Decode name = some cs →
      (∃ a, lookup fs parent name = LookupReply.entry a) ∨
        lookup fs parent name = LookupReply.error Errno.ENOENT) := by
  constructor
  · intro h
    unfold lookup
    rw [h]
  · intro cs h
    simp only [lookup, h]
    cases hf : fs.files.find?
        (fun kv => kv.2.parent == parent && kv.2.filename == String.mk cs) with
    | none => exact Or.inr rfl
    | some kv => exact Or.inl ⟨kv.2.attr, rfl⟩

/-- Witness for C10: the byte 0xFF is not valid UTF-8 and makes `lookup`
panic; the valid name `G` gets a reply. -/
theorem lookup_utf8_spec_witness :
    utf8Decode [255] = none ∧ lookup exampleFS 1 [255] = LookupReply.panicked := by
  refine ⟨by decide, ?_⟩
  exact (lookup_utf8_spec exampleFS 1 [255]).1 (by decide)

/-! ### The Name Uniquifier claim -/

/-- Claim C6: `unique_name` returns the base unchanged when the base is not
in the known list (byte-exact string comparison), and otherwise returns
`<base> (n)` for the smallest integer `n ≥ 1` such that `<base> (n)` is not
in the list. -/
theorem unique_name_contract (base : String) (known : List String) :
    (base ∉ known → unique_name base known = base) ∧
    (base ∈ known → ∃ n, 1 ≤ n ∧ unique_name base known = candidate base n ∧
      candidate base n ∉ known ∧ ∀ m, 1 ≤ m → m < n → candidate base m ∈ known) :=
  unique_name_spec base known

/-- Witness for C6: a fresh base is returned unchanged, and a doubly
colliding base gets suffix `(2)`. -/
theorem unique_name_contract_witness :
    unique_name ("b") ["a"] = "b" ∧
    ("a" : String) ∈ ["a", "a (1)"] ∧
    unique_name ("a") ["a", "a (1)"] = "a (2)" := by
  refine ⟨?_, by decide, ?_⟩
  · exact (unique_name_contract ("b") ["a"]).1 (by decide)
  · have h := (unique_name_contract ("a") ["a", "a (1)"]).2 (by decide)
    decide

/-! ### Namespace Builder claims -/

/-- Claim C7: in every table built from adapter data whose remote ids are
pairwise distinct and none equal to 1: each record's key equals its
attributes' inode and equals the entity's remote id; a record's parent is 1
iff it is a guild record; guild records carry the directory attributes and
channel records the regular-file attributes, and each channel's parent is
its guild's inode. -/
theorem build_record_invariants (guilds : List GuildData)
    (hnd : (allIds guilds).Nodup) (h1 : 1 ∉ allIds guilds) :
    ∀ kv : Nat × DiscordFile, kv ∈ build_file_tree guilds →
      kv.2.attr.ino = kv.1 ∧
      (kv.2.parent = 1 ↔ kv.2.ty = DiscordFileType.Guild) ∧
      (kv.2.ty = DiscordFileType.Guild →
        kv.2.attr = guildAttr kv.1 ∧ kv.1 ∈ guilds.map GuildData.id) ∧
      (∀ g c, kv.2.ty = DiscordFileType.ChannelFile g c →
        c = kv.1 ∧ kv.2.parent = g ∧ kv.2.attr = channelAttr kv.1 ∧
        ∃ gd, gd ∈ guilds ∧ gd.id = g ∧ ∃ ch, (kv.1, ch) ∈ gd.channels ∧
          ch.kind = ChannelKind.Text) := by
  obtain ⟨hndm, hOne⟩ := allIds_guild_facts hnd h1
  obtain ⟨hsort, hrec, hsib⟩ := build_file_tree_inv guilds hndm hOne
  intro kv hkv
  rcases hrec kv hkv with ⟨hty, hpar, hattr, hmem, _⟩ |
    ⟨g, hg, ch, hch, hkind, hty, hpar, hattr⟩
  · refine ⟨by rw [hattr]; rfl, ⟨fun _ => hty, fun _ => hpar⟩, fun _ => ⟨hattr, hmem⟩, ?_⟩
    intro g c hty2
    rw [hty] at hty2
    exact absurd hty2 (by simp)
  · refine ⟨by rw [hattr]; rfl, ⟨?_, ?_⟩, ?_, ?_⟩
    · intro hp
      rw [hpar] at hp
      exact absurd hp (hOne g hg)
    · intro hgu
      rw [hty] at hgu
      exact absurd hgu (by simp)
    · intro hgu
      rw [hty] at hgu
      exact absurd hgu (by simp)
    · intro g2 c2 hty2
      rw [hty] at hty2
      injection hty2 with hg2 hc2
      exact ⟨hc2.symm, by rw [hpar, hg2], hattr, g, hg, hg2, ch, hch, hkind⟩

/-- Witness for C7: building from one guild (id 2) with one text channel
(id 3) puts the channel record at key 3 with parent 2, and that record is
not a directory. -/
theorem build_record_invariants_witness :
    ((3, exBuiltChanRec) : Nat × DiscordFile) ∈ build_file_tree exBuildGuilds ∧
    exBuiltChanRec.attr.ino = 3 ∧ exBuiltChanRec.parent = 2 ∧
    ¬ ((3, exBuiltChanRec) : Nat × DiscordFile).2.parent = 1 := by
  have hmem : ((3, exBuiltChanRec) : Nat × DiscordFile) ∈ build_file_tree exBuildGuilds := by
    decide
  have h := build_record_invariants exBuildGuilds (by decide) (by decide)
    (3, exBuiltChanRec) hmem
  refine ⟨hmem, by decide, by decide, ?_⟩
  intro hp
  have hgu := h.2.1.mp hp
  simp [exBuiltChanRec] at hgu

/-- Counterexample to claim C8 as stated: with pairwise distinct remote ids
(but a guild whose remote id is 1, the root inode) the built table holds two
distinct records with the same parent and the same name — the guild record
at key 1 and its channel record at key 5, both named `x` under parent 1. -/
theorem build_sibling_names_counterexample :
    (allIds cexGuilds).Nodup ∧
    ((1, cexGuildRec) : Nat × DiscordFile) ∈ build_file_tree cexGuilds ∧
    ((5, cexChanRec) : Nat × DiscordFile) ∈ build_file_tree cexGuilds ∧
    cexGuildRec.parent = cexChanRec.parent ∧
    ((1, cexGuildRec) : Nat × DiscordFile) ≠ ((5, cexChanRec) : Nat × DiscordFile) ∧
    cexGuildRec.filename = cexChanRec.filename := by
  decide

/-- Claim C8 (amended): under the precondition that the remote ids are
pairwise distinct and none equals 1 (the root inode), any two distinct
records of the built table with the same parent have different names. -/
theorem build_sibling_names_unique (guilds : List GuildData)
    (hnd : (allIds guilds).Nodup) (h1 : 1 ∉ allIds guilds) :
    ∀ kv1 : Nat × DiscordFile, kv1 ∈ build_file_tree guilds →
      ∀ kv2 : Nat × DiscordFile, kv2 ∈ build_file_tree guilds →
        kv1.2.parent = kv2.2.parent → kv1 ≠ kv2 →
          kv1.2.filename ≠ kv2.2.filename := by
  obtain ⟨hndm, hOne⟩ := allIds_guild_facts hnd h1
  obtain ⟨hsort, hrec, hsib⟩ := build_file_tree_inv guilds hndm hOne
  intro kv1 hm1 kv2 hm2 hpar hne
  by_cases hk : kv1.1 = kv2.1
  · exact absurd (sorted_mem_same_key hsort hm1 hm2 hk) hne
  · exact hsib kv1 hm1 kv2 hm2 hpar hk

/-- Witness for C8: scenario S1 — two guilds both named `Cats` (ids 2 and 3)
become siblings named `Cats` and `Cats (1)`. -/
theorem build_sibling_names_unique_witness :
    ((2, catsRec2) : Nat × DiscordFile) ∈ build_file_tree catsGuilds ∧
    ((3, catsRec3) : Nat × DiscordFile) ∈ build_file_tree catsGuilds ∧
    catsRec2.filename ≠ catsRec3.filename := by
  refine ⟨by decide, by decide, ?_⟩
  exact build_sibling_names_unique catsGuilds (by decide) (by decide)
    (2, catsRec2) (by decide) (3, catsRec3) (by decide) (by decide) (by decide)

/-! ### readdir listing -/

/-- Claim C9: for the root inode and for every guild inode, `readdir` emits
entries numbered from 1 — `.` then `..` (both inode 1, directory), then
every record whose parent is the inode in table order, directories for
guilds and regular files for channels; the offset skips exactly that many
leading entries while the rest keep their sequential numbers (so the reply
is `specListing` with `offset` entries dropped, the same on every call); and
under the table's sortedness invariant the children appear in ascending key
order. -/
theorem readdir_listing_spec (fs : DiscordFS) (ino off : Nat)
    (hdir : ino = 1 ∨ ∃ file, treeGet fs.files ino = some file ∧
      file.ty = DiscordFileType.Guild)
    (hsorted : TreeSorted fs.files) :
    readdir fs ino off = ReaddirReply.ok ((specListing fs ino).drop off) ∧
    ((fs.files.filter (fun kv => kv.2.parent == ino)).map Prod.fst).Pairwise (· < ·) := by
  have hguard : ((treeGet fs.files ino).isSome || ino == 1) = true := by
    rcases hdir with rfl | ⟨file, hget, _⟩
    · simp
    · rw [hget]
      simp
  constructor
  · unfold readdir
    rw [if_pos hguard]
    unfold specListing specChildren
    simp only [List.map_drop]
    have hfun : (fun kv : Nat × DiscordFile =>
        ((kv.1,
          (match kv.2.ty with
           | DiscordFileType.Guild => FileType.Directory
           | DiscordFileType.ChannelFile _ _ => FileType.RegularFile),
          kv.2.filename) : Nat × FileType × String)) =
        (fun kv : Nat × DiscordFile => (kv.1, entryType kv.2.ty, kv.2.filename)) := by
      funext kv
      cases kv.2.ty <;> rfl
    rw [hfun]
    rfl
  · refine List.Pairwise.map Prod.fst (fun a b h => h) ?_
    exact List.Pairwise.sublist (List.filter_sublist fs.files) hsorted

/-- Witness for C9: listing the example root at offsets 0 and 2; the guild
entry keeps its sequence number 3 after the skip. -/
theorem readdir_listing_spec_witness :
    readdir exampleFS 1 0 = ReaddirReply.ok ((specListing exampleFS 1).drop 0) ∧
    readdir exampleFS 1 2 = ReaddirReply.ok ((specListing exampleFS 1).drop 2) ∧
    readdir exampleFS 1 2 =
      ReaddirReply.ok [{ ino := 2, off := 3, kind := FileType.Directory, name := "G" }] := by
  refine ⟨?_, ?_, by decide⟩
  · exact (readdir_listing_spec exampleFS 1 0 (Or.inl rfl) (by decide)).1
  · exact (readdir_listing_spec exampleFS 1 2 (Or.inl rfl) (by decide)).1

end DFuse
